import Mathlib

/-!
Verification of the BookBridge recommendation core against its design
specification.  The repository ships the React/TypeScript client under
src/Frontend; the backend pipeline (Catalog Index, Embedding Store,
Metadata Store, Resource Cache, Recommendation Engine) is described by the
specification and is modelled here faithfully from the spec text.
Strings are modelled as Lean String backed by List Char, floating-point
scores and similarities as rationals, and JavaScript trim as whitespace
trimming on the character list.
-/

/-- ASCII whitespace recognizer used by title normalization and by the
model of the JavaScript trim operation. -/
def isWhite (c : Char) : Bool :=
  c = ' ' || c = '\t' || c = '\n' || c = '\r'

/-- Punctuation characters removed by title normalization. -/
def punctChars : List Char :=
  ['.', ',', ':', ';', '!', '?', '"', '(', ')', '[', ']', '-', '_', '&', '/']

/-- Is the character punctuation? -/
def isPunct (c : Char) : Bool :=
  punctChars.contains c

/-- ASCII lower-casing of one character. -/
def lowerChar (c : Char) : Char :=
  if 65 ≤ c.toNat ∧ c.toNat ≤ 90 then Char.ofNat (c.toNat + 32) else c

/-- Remove leading and trailing whitespace from a character list. -/
def trimChars (l : List Char) : List Char :=
  ((l.dropWhile isWhite).reverse.dropWhile isWhite).reverse

/-- Modelled from the spec: the JavaScript string trim used by the chat
client (strip leading and trailing whitespace). -/
def jsTrim (s : String) : String :=
  ⟨trimChars s.data⟩

/-- Word splitting worker: acc holds the current word reversed; a
whitespace character flushes acc, any other character extends it. -/
def wordsAux : List Char → List Char → List (List Char)
  | acc, [] => if acc.isEmpty then [] else [acc.reverse]
  | acc, c :: cs =>
      if isWhite c then
        if acc.isEmpty then wordsAux [] cs else acc.reverse :: wordsAux [] cs
      else wordsAux (c :: acc) cs

/-- Split a character list into its maximal whitespace-free words. -/
def words (l : List Char) : List (List Char) :=
  wordsAux [] l

/-- Join words with single spaces. -/
def unwords : List (List Char) → List Char
  | [] => []
  | [w] => w
  | w :: ws => w ++ ' ' :: unwords ws

/-- Is the word one of the leading articles stripped by normalization? -/
def isArticle (w : List Char) : Bool :=
  w = ['a'] || w = ['a', 'n'] || w = ['t', 'h', 'e']

/-- Fuel-indexed stripping of leading article words from a raw (not yet
collapsed) character list; each step skips leading whitespace, inspects the
first whitespace-delimited word and drops it when it is an article. -/
def stripArtAux : Nat → List Char → List Char
  | 0, l => l
  | fuel + 1, l =>
      let t := l.dropWhile isWhite
      if isArticle (t.takeWhile (fun d => !isWhite d)) then
        stripArtAux fuel (t.dropWhile (fun d => !isWhite d))
      else l

/-- Modelled from the spec: strip the leading articles a, an, the from the
front of the (lower-cased, not yet punctuation-stripped) title. -/
def stripLeadingArticles (l : List Char) : List Char :=
  stripArtAux l.length l

/-- Remove punctuation characters. -/
def removePunct (l : List Char) : List Char :=
  l.filter (fun c => !isPunct c)

/-- Collapse every whitespace run to a single space; the flag records
whether the previous emitted character was (collapsed) whitespace. -/
def collapseAux : Bool → List Char → List Char
  | _, [] => []
  | prevWS, c :: cs =>
      if isWhite c then
        if prevWS then collapseAux true cs
        else ' ' :: collapseAux true cs
      else c :: collapseAux false cs

/-- Collapse internal whitespace to single spaces. -/
def collapseWS (l : List Char) : List Char :=
  collapseAux false l

/-- Modelled from the spec: the Catalog Index normalization algorithm, in
the spec's step order — lower-case, strip leading articles, remove
punctuation, collapse internal whitespace to single spaces, trim.  The
backend source is not part of src, so the definition follows the spec
text literally. -/
def normalizeTitle (s : String) : String :=
  ⟨trimChars (collapseWS (removePunct (stripLeadingArticles (s.data.map lowerChar))))⟩

/-- Word-level view of the repaired normalization: lower-case, remove
punctuation, split into words (which collapses whitespace and trims), and
strip leading articles repeatedly. -/
def normalizeWords (l : List Char) : List (List Char) :=
  (words (removePunct (l.map lowerChar))).dropWhile isArticle

/-- The repaired normalization: identical ingredient operations, but
articles are stripped (repeatedly) only after punctuation removal and
whitespace collapsing, which restores idempotence. -/
def normalizeFix (s : String) : String :=
  ⟨unwords (normalizeWords s.data)⟩

/-! ## Engine data model (modelled from the spec, backend absent from src) -/

/-- Modelled from the spec: the origin tag of a transient ScoredCandidate. -/
inductive Origin
  | LLM_DIRECT
  | LLM_NORMALIZED
  | NEIGHBOR_EXPANSION
deriving DecidableEq, Repr

/-- Fusion tie-break priority on origins: LLM_NORMALIZED outranks
NEIGHBOR_EXPANSION; LLM_DIRECT sits above both. -/
def prio : Origin → Nat
  | .LLM_DIRECT => 2
  | .LLM_NORMALIZED => 1
  | .NEIGHBOR_EXPANSION => 0

/-- Modelled from the spec: a transient engine-internal scored candidate;
float scores are modelled as rationals. -/
structure ScoredCandidate where
  canonical_id : String
  score : ℚ
  origin : Origin
deriving DecidableEq, Repr

/-- Keep the better of an existing fused entry and a new contribution with
the same canonical_id: maximum score, ties broken by origin priority. -/
def mergeCand (e c : ScoredCandidate) : ScoredCandidate :=
  if e.score < c.score then c
  else if c.score = e.score ∧ prio e.origin < prio c.origin then c
  else e

/-- Insert one candidate into an id-deduplicated accumulator, merging with
the existing entry of the same canonical_id when there is one. -/
def fuseInsert : List ScoredCandidate → ScoredCandidate → List ScoredCandidate
  | [], c => [c]
  | e :: es, c =>
      if e.canonical_id = c.canonical_id then mergeCand e c :: es
      else e :: fuseInsert es c

/-- Modelled from the spec: fusion merges all ScoredCandidates by
canonical_id, keeping the maximum score and the origin of that maximum
(ties on score broken by origin priority). -/
def fuse : List ScoredCandidate → List ScoredCandidate
  | [] => []
  | c :: cs => fuseInsert (fuse cs) c

/-- The canonical_ids of a candidate list, in order. -/
def candIds (l : List ScoredCandidate) : List String :=
  l.map (fun c => c.canonical_id)

/-- Does candidate x dominate contribution d under the fusion order:
strictly higher score, or equal score and at least its origin priority. -/
def dominates (x d : ScoredCandidate) : Prop :=
  d.score < x.score ∨ (d.score = x.score ∧ prio d.origin ≤ prio x.origin)

/-! ## Embedding Store (modelled from the spec) -/

/-- Modelled from the spec: the Embedding Store maps canonical_ids to
fixed-length vectors, stored L2-normalized; entries are rationals. -/
abbrev EmbeddingStore := List (String × List ℚ)

/-- Dot product of two stored (already L2-normalized) vectors; this is the
cosine similarity of the spec. -/
def dot (v w : List ℚ) : ℚ :=
  (List.zipWith (fun a b => a * b) v w).sum

/-- Neighbor ordering: descending similarity, exact ties broken by lower
canonical_id. -/
def simLE (a b : String × ℚ) : Bool :=
  decide (b.2 < a.2) || (decide (a.2 = b.2) && decide (a.1 ≤ b.1))

/-- Every stored id other than the query id, scored by similarity of its
vector to the query vector. -/
def neighborCands (store : EmbeddingStore) (cid : String) (q : List ℚ) :
    List (String × ℚ) :=
  (store.filter (fun p => p.1 ≠ cid)).map (fun p => (p.1, dot q p.2))

/-- Modelled from the spec: the neighbor query of the Embedding Store —
empty when the query id has no vector, otherwise every other stored id
scored by similarity to the query vector, sorted descending with ties by
lower canonical_id, truncated to k. -/
def neighbors (store : EmbeddingStore) (cid : String) (k : Nat) :
    List (String × ℚ) :=
  match store.lookup cid with
  | none => []
  | some q => ((neighborCands store cid q).mergeSort simLE).take k

/-! ## Rank and truncate (modelled from the spec) -/

/-- Final ranking order: score descending, ties by canonical_id ascending. -/
def scoreLE (a b : ScoredCandidate) : Bool :=
  decide (b.score < a.score) ||
    (decide (a.score = b.score) && decide (a.canonical_id ≤ b.canonical_id))

/-- Modelled from the spec: sort the fused candidate set by score
descending with ties by canonical_id ascending, then truncate to top-K. -/
def rankTruncate (k : Nat) (cands : List ScoredCandidate) :
    List ScoredCandidate :=
  (cands.mergeSort scoreLE).take k

/-! ## Metadata Store (modelled from the spec) -/

/-- Modelled from the spec: one row of the backing metadata table. -/
structure MetaRow where
  title : String
  author_name : Option String
  average_rating : Option ℚ
  rating_number : Option Nat
  primary_image : Option String
deriving DecidableEq, Repr

/-- Modelled from the spec: the hydrated display record; missing fields
are explicit nulls (title is optional so that an id absent from both the
metadata table and the Catalog Index carries a null title). -/
structure MetadataRecord where
  canonical_id : String
  title : Option String
  author_name : Option String
  average_rating : Option ℚ
  rating_number : Option Nat
  primary_image : Option String
deriving DecidableEq, Repr

/-- The backing metadata table, keyed by canonical_id. -/
abbrev MetadataTable := List (String × MetaRow)

/-- The Catalog Index raw-title table, keyed by canonical_id, used as the
title fallback during hydration. -/
abbrev RawTitleTable := List (String × String)

/-- Hydrate one id: a full record from the backing table when present,
otherwise a record with only canonical_id and the Catalog Index raw title
(when available) populated and all other fields null. -/
def hydrateOne (meta : MetadataTable) (raw : RawTitleTable) (cid : String) :
    MetadataRecord :=
  match meta.lookup cid with
  | some r => ⟨cid, some r.title, r.author_name, r.average_rating,
      r.rating_number, r.primary_image⟩
  | none => ⟨cid, raw.lookup cid, none, none, none, none⟩

/-- Modelled from the spec: hydration is total over its input and
preserves order, one record per id. -/
def hydrate (meta : MetadataTable) (raw : RawTitleTable)
    (cids : List String) : List MetadataRecord :=
  cids.map (hydrateOne meta raw)

/-! ## Catalog Index (modelled from the spec) -/

/-- The Catalog Index lookup table from normalized title to canonical_id. -/
abbrev CatalogIndex := List (String × String)

/-- Strip a trailing subtitle: keep the text before the first colon. -/
def dropSubtitle (s : String) : String :=
  ⟨s.data.takeWhile (fun c => c ≠ ':')⟩

/-- Modelled from the spec: Catalog Index resolution — exact match on the
normalized key, then a single fallback strip of a trailing subtitle and one
retry; none when still unresolved. -/
def resolve (idx : CatalogIndex) (title : String) : Option String :=
  match idx.lookup (normalizeTitle title) with
  | some cid => some cid
  | none => idx.lookup (normalizeTitle (dropSubtitle title))

/-! ## Recommendation Engine (modelled from the spec) -/

/-- Engine configuration bounds: M generated titles, seed limit, neighbor
count k, expansion decay factor, final truncation K. -/
structure EngineConfig where
  M : Nat
  seedLimit : Nat
  k : Nat
  decay : ℚ
  K : Nat

/-- The three read-only stores, as materialized by the Resource Cache. -/
structure Stores where
  catalog : CatalogIndex
  embeddings : EmbeddingStore
  meta : MetadataTable
  rawTitles : RawTitleTable

/-- Modelled from the spec: outcome of the language-model collaborator —
an ordered title list, or a distinguishable upstream-unavailable failure. -/
inductive LLMOutcome
  | ok (titles : List String)
  | unavailable

/-- Modelled from the spec: resolve each generated title and seed scores
by rank, score of rank i being 1 - i / M; unresolved titles are dropped. -/
def genCandidates (cfg : EngineConfig) (idx : CatalogIndex)
    (titles : List String) : List ScoredCandidate :=
  titles.enum.filterMap (fun p =>
    (resolve idx p.2).map (fun cid =>
      ⟨cid, 1 - (p.1 : ℚ) / (cfg.M : ℚ), Origin.LLM_NORMALIZED⟩))

/-- Modelled from the spec: neighbor expansion of the top seeds; each
neighbor is scored seed score times similarity times decay. -/
def expandSeeds (cfg : EngineConfig) (store : EmbeddingStore)
    (seeds : List ScoredCandidate) : List ScoredCandidate :=
  (seeds.take cfg.seedLimit).flatMap (fun s =>
    (neighbors store s.canonical_id cfg.k).map (fun p =>
      ⟨p.1, s.score * p.2 * cfg.decay, Origin.NEIGHBOR_EXPANSION⟩))

/-- Modelled from the spec: the engine pipeline for one request — generate,
normalize, expand, fuse, rank and truncate, hydrate; an unavailable
language model yields zero candidates, and zero resolved candidates
short-circuit to the empty result. -/
def recommend (cfg : EngineConfig) (st : Stores) (llm : LLMOutcome) :
    List MetadataRecord :=
  match llm with
  | .unavailable => []
  | .ok titles =>
      let resolved := genCandidates cfg st.catalog titles
      if resolved.isEmpty then []
      else
        let fused := fuse (resolved ++ expandSeeds cfg st.embeddings resolved)
        hydrate st.meta st.rawTitles (candIds (rankTruncate cfg.K fused))

/-- A failure of the Resource Cache to materialize a store. -/
structure LoadFailure where
  message : String
deriving DecidableEq

/-- Modelled from the spec: the service boundary — a cache-load failure
aborts the request as a service-level error, everything else produces a
(possibly empty) ranked list. -/
def runService (loaded : Except LoadFailure Stores) (cfg : EngineConfig)
    (llm : LLMOutcome) : Except LoadFailure (List MetadataRecord) :=
  match loaded with
  | .error e => .error e
  | .ok st => .ok (recommend cfg st llm)

/-! ## Resource Cache load-state machine (modelled from the spec) -/

/-- Modelled from the spec: the load state of one CacheEntry. -/
inductive LoadState
  | unloaded
  | loading
  | ready
  | failed
deriving DecidableEq, Repr

/-- Events at one cache entry: a get_or_load call arriving, or the
in-flight remote load completing with success or failure.  Concurrent
callers are modelled as an arbitrary interleaving of request events. -/
inductive CacheOp
  | request
  | completeOk
  | completeFail
deriving DecidableEq, Repr

/-- Modelled from the spec: the per-key state transition of get_or_load.
The returned flag is true exactly when the event issues the backing remote
load; a request that finds the entry LOADING, READY or FAILED never does —
it waits on the in-flight load or uses the settled result. -/
def cacheStep : LoadState → CacheOp → LoadState × Bool
  | .unloaded, .request => (.loading, true)
  | .loading, .request => (.loading, false)
  | .ready, .request => (.ready, false)
  | .failed, .request => (.failed, false)
  | .loading, .completeOk => (.ready, false)
  | .loading, .completeFail => (.failed, false)
  | s, .completeOk => (s, false)
  | s, .completeFail => (s, false)

/-- Run an event sequence from a state, counting issued remote loads. -/
def cacheRun (s : LoadState) : List CacheOp → LoadState × Nat
  | [] => (s, 0)
  | op :: ops =>
      let r := cacheStep s op
      let rest := cacheRun r.1 ops
      (rest.1, (if r.2 then 1 else 0) + rest.2)

/-- Remote loads issued over a process lifetime that starts UNLOADED. -/
def loadsIssued (ops : List CacheOp) : Nat :=
  (cacheRun LoadState.unloaded ops).2

/-! ## Chat client (embedded from src/Frontend and src/unnamed) -/

/-- From src/Frontend/src/types: the message sender tag. -/
inductive Sender
  | user
  | ai
deriving DecidableEq, Repr

/-- From src/Frontend/src/types (part_005): the Book entity. -/
structure Book where
  asin : String
  title : String
  author_name : Option String
  average_rating : Option ℚ
  rating_number : Option Nat
  primary_image : Option String
deriving DecidableEq, Repr

/-- From src/Frontend/src/types: a chat message; a missing
recommendations field is the empty list. -/
structure ChatMessage where
  id : String
  sender : Sender
  text : String
  recommendations : List Book
deriving DecidableEq, Repr

/-- From src/Frontend/src/context/ChatContext.tsx: one entry of the
recommendation history. -/
structure RecommendationHistoryEntry where
  messageId : String
  books : List Book
deriving DecidableEq, Repr

/-- From src/Frontend/src/context/ChatContext.tsx: the chat state held by
the provider. -/
structure ChatState where
  messages : List ChatMessage
  isLoading : Bool
  selectedBook : Option Book
  error : Option String
  recommendationHistory : List RecommendationHistoryEntry
  activeRecommendationMessageId : Option String
deriving DecidableEq, Repr

/-- The provider's initial state: everything empty. -/
def initialChatState : ChatState :=
  ⟨[], false, none, none, [], none⟩

/-- A small model of JSON values, enough to state what the client puts in
a request body. -/
inductive JsonVal
  | str (s : String)
  | arr (elts : List JsonVal)

/-- An HTTP request issued by the client: path and JSON object body given
as its field list. -/
structure ApiRequest where
  path : String
  body : List (String × JsonVal)

/-- From src/Frontend/src/services/api.ts, fetchChatResponse: in the
non-mock configuration the client POSTs to /api/chat a body whose single
field history holds the value of the first argument; the function
declares one parameter, so any further argument at a call site is
dropped. -/
def fetchChatRequest (currentHistory : JsonVal) : ApiRequest :=
  ⟨"/api/chat", [("history", currentHistory)]⟩

/-- From src/Frontend/src/context/ChatContext.tsx, handleSendMessage: the
request the client issues for the given input text, in the non-mock
configuration.  Blank input issues none; otherwise fetchChatResponse is
called with the trimmed text (and the computed user history, which the
one-parameter fetchChatResponse drops). -/
def clientRequest (text : String) (s : ChatState) : Option ApiRequest :=
  let trimmed := jsTrim text
  if trimmed = "" then none
  else some (fetchChatRequest (JsonVal.str trimmed))

/-- The request body the spec's engine interface calls for: the trimmed
prompt and the ordered prior user-message texts.  Written from the spec's
words, for comparison with the request the code builds. -/
def specEngineRequestBody (text : String) (s : ChatState) :
    List (String × JsonVal) :=
  [("prompt", JsonVal.str (jsTrim text)),
   ("history", JsonVal.arr
     (((s.messages.filter (fun m => m.sender = Sender.user)).map
       (fun m => m.text)).map JsonVal.str))]

/-- From ChatContext.tsx, persistRecommendations: ignore empty book
lists, otherwise append a history entry and activate its messageId. -/
def persistRecommendations (messageId : String) (books : List Book)
    (s : ChatState) : ChatState :=
  if books.isEmpty then s
  else { s with
    recommendationHistory :=
      s.recommendationHistory ++ [⟨messageId, books⟩],
    activeRecommendationMessageId := some messageId }

/-- From ChatContext.tsx, showRecommendationsForMessage: activate a
messageId only when the history already has an entry for it. -/
def showRecommendationsForMessage (messageId : String) (s : ChatState) :
    ChatState :=
  if s.recommendationHistory.any (fun e => e.messageId = messageId) then
    { s with activeRecommendationMessageId := some messageId }
  else s

/-- From ChatContext.tsx, handleViewDetails. -/
def handleViewDetails (b : Book) (s : ChatState) : ChatState :=
  { s with selectedBook := some b }

/-- From ChatContext.tsx, handleCloseModal. -/
def handleCloseModal (s : ChatState) : ChatState :=
  { s with selectedBook := none }

/-- From ChatContext.tsx, handleSendMessage up to the await: blank input
returns at once, otherwise the user message (with the fresh uuid) is
appended, loading starts and the error clears. -/
def handleSendMessageStart (uuid : String) (text : String) (s : ChatState) :
    ChatState :=
  let trimmed := jsTrim text
  if trimmed = "" then s
  else { s with
    messages := s.messages ++ [⟨uuid, Sender.user, trimmed, []⟩],
    isLoading := true,
    error := none }

/-- From ChatContext.tsx, handleSendMessage after a successful response:
append the ai message, persist its recommendations when non-empty, stop
loading. -/
def handleSendMessageSuccess (aiMsg : ChatMessage) (s : ChatState) :
    ChatState :=
  let s1 := { s with messages := s.messages ++ [aiMsg] }
  let s2 := if aiMsg.recommendations.isEmpty then s1
    else persistRecommendations aiMsg.id aiMsg.recommendations s1
  { s2 with isLoading := false }

/-- From ChatContext.tsx, handleSendMessage on a failed response: record
the error, stop loading. -/
def handleSendMessageFailure (msg : String) (s : ChatState) : ChatState :=
  { s with error := some msg, isLoading := false }

/-- From ChatContext.tsx: the books shown for the active recommendation
id, empty when none is active. -/
def activeRecommendations (s : ChatState) : List Book :=
  match s.activeRecommendationMessageId with
  | none => []
  | some mid =>
      ((s.recommendationHistory.find? (fun e => e.messageId = mid)).map
        (fun e => e.books)).getD []

/-- From src/unnamed/part_001, ChatInput onSubmit: whether submitting the
form with the given input text invokes handleSendMessage at all. -/
def chatInputSubmits (inputText : String) : Bool :=
  !(jsTrim inputText = "")

/-- The chat-state invariant of the recommendation drawer: every stored
history entry has a non-empty book list, and the active id, when set,
names some stored entry. -/
def ChatInv (s : ChatState) : Prop :=
  (∀ e ∈ s.recommendationHistory, e.books ≠ []) ∧
  (∀ mid, s.activeRecommendationMessageId = some mid →
    ∃ e ∈ s.recommendationHistory, e.messageId = mid)

/-! ## Theorems: normalization (C8) -/

theorem charOfNat_toNat (n : Nat) (h : n < 55296) : (Char.ofNat n).toNat = n := by
  have hv : n.isValidChar := Or.inl h
  simp [Char.ofNat, hv, Char.ofNatAux, Char.toNat, UInt32.ofNat', UInt32.toNat]

theorem lowerChar_idem (c : Char) : lowerChar (lowerChar c) = lowerChar c := by
  unfold lowerChar
  by_cases h : 65 ≤ c.toNat ∧ c.toNat ≤ 90
  · rw [if_pos h]
    have ht : (Char.ofNat (c.toNat + 32)).toNat = c.toNat + 32 :=
      charOfNat_toNat _ (by omega)
    rw [if_neg]
    rw [ht]
    omega
  · rw [if_neg h, if_neg h]

theorem lowerChar_space : lowerChar ' ' = ' ' := by decide

theorem isPunct_space : isPunct ' ' = false := by decide

theorem wordsAux_append (w : List Char) (hw : ∀ c ∈ w, isWhite c = false) :
    ∀ acc rest, wordsAux acc (w ++ rest) = wordsAux (w.reverse ++ acc) rest := by
  induction w with
  | nil => intro acc rest; simp
  | cons c w ih =>
      intro acc rest
      have hc : isWhite c = false := hw c (by simp)
      have hw2 : ∀ d ∈ w, isWhite d = false := fun d hd => hw d (by simp [hd])
      simp only [List.cons_append, wordsAux, hc, Bool.false_eq_true, if_false]
      rw [List.append_eq, ih hw2 (c :: acc) rest]
      simp

theorem words_unwords (W : List (List Char))
    (h1 : ∀ w ∈ W, w ≠ [])
    (h2 : ∀ w ∈ W, ∀ c ∈ w, isWhite c = false) :
    words (unwords W) = W := by
  induction W with
  | nil => rfl
  | cons w ws ih =>
      cases ws with
      | nil =>
          have hw : w ≠ [] := h1 w (by simp)
          have hwc : ∀ c ∈ w, isWhite c = false := h2 w (by simp)
          show wordsAux [] (unwords [w]) = [w]
          have : unwords [w] = w ++ [] := by simp [unwords]
          rw [this, wordsAux_append w hwc [] []]
          simp [wordsAux, List.isEmpty_iff, hw]
      | cons w2 ws2 =>
          have hw : w ≠ [] := h1 w (by simp)
          have hwc : ∀ c ∈ w, isWhite c = false := h2 w (by simp)
          have ihr : words (unwords (w2 :: ws2)) = w2 :: ws2 :=
            ih (fun x hx => h1 x (by simp [hx]))
              (fun x hx => h2 x (by simp [hx]))
          show wordsAux [] (unwords (w :: w2 :: ws2)) = w :: w2 :: ws2
          have hu : unwords (w :: w2 :: ws2) =
              w ++ ' ' :: unwords (w2 :: ws2) := rfl
          rw [hu, wordsAux_append w hwc [] (' ' :: unwords (w2 :: ws2))]
          have hrev : (w.reverse ++ []).isEmpty = false := by
            simp [List.isEmpty_iff, hw]
          simp only [wordsAux, show isWhite ' ' = true from rfl, if_true, hrev,
            Bool.false_eq_true, if_false]
          have hx : (w.reverse ++ []).reverse = w := by simp
          rw [hx]
          exact congrArg (w :: ·) ihr

theorem wordsAux_mem (l : List Char) :
    ∀ acc w, w ∈ wordsAux acc l → ∀ c ∈ w, c ∈ l ∨ c ∈ acc := by
  induction l with
  | nil =>
      intro acc w hwmem c hc
      by_cases h : acc.isEmpty
      · simp [wordsAux, h] at hwmem
      · simp [wordsAux, h] at hwmem
        subst hwmem
        exact Or.inr (by simpa using hc)
  | cons d cs ih =>
      intro acc w hwmem c hc
      by_cases hd : isWhite d
      · by_cases ha : acc.isEmpty
        · simp only [wordsAux, hd, if_true, ha] at hwmem
          rcases ih [] w hwmem c hc with h | h
          · exact Or.inl (by simp [h])
          · simp at h
        · simp only [wordsAux, hd, if_true, ha, Bool.false_eq_true, if_false,
            List.mem_cons] at hwmem
          rcases hwmem with h | h
          · subst h
            exact Or.inr (by simpa using hc)
          · rcases ih [] w h c hc with h2 | h2
            · exact Or.inl (by simp [h2])
            · simp at h2
      · simp only [wordsAux, hd, Bool.false_eq_true, if_false] at hwmem
        rcases ih (d :: acc) w hwmem c hc with h | h
        · exact Or.inl (by simp [h])
        · rcases List.mem_cons.mp h with h2 | h2
          · exact Or.inl (by simp [h2])
          · exact Or.inr h2

theorem wordsAux_ok (l : List Char) :
    ∀ acc, (∀ c ∈ acc, isWhite c = false) →
    ∀ w ∈ wordsAux acc l, w ≠ [] ∧ ∀ c ∈ w, isWhite c = false := by
  induction l with
  | nil =>
      intro acc hacc w hwmem
      by_cases h : acc.isEmpty
      · simp [wordsAux, h] at hwmem
      · simp [wordsAux, h] at hwmem
        subst hwmem
        constructor
        · simp [List.isEmpty_iff] at h
          simpa using h
        · intro c hc
          exact hacc c (by simpa using hc)
  | cons d cs ih =>
      intro acc hacc w hwmem
      by_cases hd : isWhite d
      · by_cases ha : acc.isEmpty
        · simp only [wordsAux, hd, if_true, ha] at hwmem
          exact ih [] (by simp) w hwmem
        · simp only [wordsAux, hd, if_true, ha, Bool.false_eq_true, if_false,
            List.mem_cons] at hwmem
          rcases hwmem with h | h
          · subst h
            constructor
            · simp [List.isEmpty_iff] at ha
              simpa using ha
            · intro c hc
              exact hacc c (by simpa using hc)
          · exact ih [] (by simp) w h
      · simp only [wordsAux, hd, Bool.false_eq_true, if_false] at hwmem
        refine ih (d :: acc) ?_ w hwmem
        intro c hc
        rcases List.mem_cons.mp hc with h | h
        · subst h; simpa using hd
        · exact hacc c h

theorem mem_unwords (W : List (List Char)) :
    ∀ c ∈ unwords W, (∃ w ∈ W, c ∈ w) ∨ c = ' ' := by
  induction W with
  | nil => simp [unwords]
  | cons w ws ih =>
      cases ws with
      | nil =>
          intro c hc
          exact Or.inl ⟨w, by simp, by simpa [unwords] using hc⟩
      | cons w2 ws2 =>
          intro c hc
          have hc2 : c ∈ w ++ ' ' :: unwords (w2 :: ws2) := hc
          rcases List.mem_append.mp hc2 with h | h
          · exact Or.inl ⟨w, by simp, h⟩
          · rcases List.mem_cons.mp h with h2 | h2
            · exact Or.inr h2
            · rcases ih c h2 with ⟨w3, hw3, hcw3⟩ | h3
              · exact Or.inl ⟨w3, by simp [hw3], hcw3⟩
              · exact Or.inr h3

theorem map_eq_self_of_mem {α : Type} (f : α → α) (l : List α)
    (h : ∀ a ∈ l, f a = a) : l.map f = l := by
  calc l.map f = l.map id := List.map_congr_left h
  _ = l := List.map_id l

theorem normalizeWords_unwords (l : List Char) :
    normalizeWords (unwords (normalizeWords l)) = normalizeWords l := by
  have hVok : ∀ w ∈ words (removePunct (l.map lowerChar)),
      w ≠ [] ∧ ∀ c ∈ w, isWhite c = false :=
    wordsAux_ok (removePunct (l.map lowerChar)) [] (by simp)
  have hVmem : ∀ w ∈ words (removePunct (l.map lowerChar)),
      ∀ c ∈ w, c ∈ removePunct (l.map lowerChar) := by
    intro w hw c hc
    rcases wordsAux_mem (removePunct (l.map lowerChar)) [] w hw c hc with h | h
    · exact h
    · simp at h
  have hsub : ∀ w ∈ normalizeWords l, w ∈ words (removePunct (l.map lowerChar)) :=
    fun w hw => (List.dropWhile_sublist isArticle).subset hw
  have hcharP : ∀ c ∈ removePunct (l.map lowerChar), isPunct c = false := by
    intro c hc
    have := (List.mem_filter.mp hc).2
    simpa using this
  have hcharL : ∀ c ∈ removePunct (l.map lowerChar), lowerChar c = c := by
    intro c hc
    have hcm : c ∈ l.map lowerChar := (List.mem_filter.mp hc).1
    rcases List.mem_map.mp hcm with ⟨d, _, hd⟩
    rw [← hd]
    exact lowerChar_idem d
  have hA : (unwords (normalizeWords l)).map lowerChar =
      unwords (normalizeWords l) := by
    refine map_eq_self_of_mem lowerChar _ ?_
    intro c hc
    rcases mem_unwords (normalizeWords l) c hc with ⟨w, hw, hcw⟩ | h
    · exact hcharL c (hVmem w (hsub w hw) c hcw)
    · rw [h]; exact lowerChar_space
  have hB : removePunct (unwords (normalizeWords l)) =
      unwords (normalizeWords l) := by
    refine List.filter_eq_self.mpr ?_
    intro c hc
    rcases mem_unwords (normalizeWords l) c hc with ⟨w, hw, hcw⟩ | h
    · simp [hcharP c (hVmem w (hsub w hw) c hcw)]
    · rw [h]; simp [isPunct_space]
  have hC : words (unwords (normalizeWords l)) = normalizeWords l := by
    refine words_unwords (normalizeWords l) ?_ ?_
    · intro w hw; exact (hVok w (hsub w hw)).1
    · intro w hw; exact (hVok w (hsub w hw)).2
  show (words (removePunct ((unwords (normalizeWords l)).map
      lowerChar))).dropWhile isArticle = normalizeWords l
  rw [hA, hB, hC]
  show ((words (removePunct (l.map lowerChar))).dropWhile
      isArticle).dropWhile isArticle = _
  rw [List.dropWhile_idempotent]
  rfl

/-- C8 (amended): the normalization of the spec, taken in the spec's own
step order, is not idempotent; normalization becomes idempotent for every
title string once leading articles are stripped, repeatedly, after
punctuation removal and whitespace collapsing and trimming, with the
ingredient operations unchanged.  This theorem proves the amended
algorithm idempotent on all strings. -/
theorem normalizeFix_idempotent (s : String) :
    normalizeFix (normalizeFix s) = normalizeFix s := by
  show (⟨unwords (normalizeWords (unwords (normalizeWords s.data)))⟩ : String)
      = ⟨unwords (normalizeWords s.data)⟩
  rw [normalizeWords_unwords]

/-- C8 counterexample: with the spec's step order (articles stripped
before punctuation removal), removing punctuation can expose a fresh
leading article, so a second normalization pass strips further: the title
"a. cat" normalizes to "a cat", which normalizes to "cat". -/
theorem normalizeTitle_not_idempotent :
    ¬ (∀ x : String, normalizeTitle (normalizeTitle x) = normalizeTitle x) := by
  intro h
  have hx := h "a. cat"
  have h1 : normalizeTitle "a. cat" = "a cat" := by decide
  have h2 : normalizeTitle "a cat" = "cat" := by decide
  rw [h1, h2] at hx
  exact absurd hx (by decide)

/-! ## Theorems: fusion (C1) -/

theorem dominates_refl (x : ScoredCandidate) : dominates x x :=
  Or.inr ⟨rfl, le_refl _⟩

theorem dominates_trans {x y z : ScoredCandidate}
    (h1 : dominates x y) (h2 : dominates y z) : dominates x z := by
  rcases h1 with h1 | ⟨h1e, h1p⟩ <;> rcases h2 with h2 | ⟨h2e, h2p⟩
  · exact Or.inl (lt_trans h2 h1)
  · exact Or.inl (lt_of_le_of_lt (le_of_eq h2e) h1)
  · exact Or.inl (lt_of_lt_of_le h2 (le_of_eq h1e))
  · exact Or.inr ⟨h2e.trans h1e, le_trans h2p h1p⟩

theorem mergeCand_cases (e c : ScoredCandidate) :
    mergeCand e c = e ∨ mergeCand e c = c := by
  unfold mergeCand
  split_ifs <;> simp

theorem mergeCand_dominates_left (e c : ScoredCandidate) :
    dominates (mergeCand e c) e := by
  unfold mergeCand
  split_ifs with h1 h2
  · exact Or.inl h1
  · exact Or.inr ⟨h2.1.symm, le_of_lt h2.2⟩
  · exact dominates_refl e

theorem mergeCand_dominates_right (e c : ScoredCandidate) :
    dominates (mergeCand e c) c := by
  unfold mergeCand
  split_ifs with h1 h2
  · exact dominates_refl c
  · exact dominates_refl c
  · push_neg at h1 h2
    rcases lt_or_eq_of_le h1 with h | h
    · exact Or.inl h
    · exact Or.inr ⟨h, h2 h⟩

theorem mergeCand_canonical_id (e c : ScoredCandidate)
    (h : e.canonical_id = c.canonical_id) :
    (mergeCand e c).canonical_id = c.canonical_id := by
  rcases mergeCand_cases e c with h2 | h2 <;> rw [h2]
  exact h

theorem candIds_fuseInsert (acc : List ScoredCandidate) (c : ScoredCandidate) :
    candIds (fuseInsert acc c) =
      if c.canonical_id ∈ candIds acc then candIds acc
      else candIds acc ++ [c.canonical_id] := by
  induction acc with
  | nil => simp [fuseInsert, candIds]
  | cons e es ih =>
      by_cases he : e.canonical_id = c.canonical_id
      · simp only [fuseInsert, he, if_true, candIds, List.map_cons,
          mergeCand_canonical_id e c he, List.mem_cons]
        simp
      · simp only [fuseInsert, he, if_false, candIds, List.map_cons,
          List.mem_cons]
        have hne : ¬ c.canonical_id = e.canonical_id := fun h => he h.symm
        by_cases hmem : c.canonical_id ∈ candIds es
        · rw [if_pos (Or.inr (by simpa [candIds] using hmem))]
          have := ih
          rw [if_pos hmem] at this
          simpa [candIds] using this
        · rw [if_neg (by simp [hne]; simpa [candIds] using hmem)]
          have := ih
          rw [if_neg hmem] at this
          simp only [candIds] at this ⊢
          rw [this, List.cons_append]

theorem fuseInsert_elems (acc : List ScoredCandidate) (c : ScoredCandidate)
    (hnd : (candIds acc).Nodup) :
    ∀ x ∈ fuseInsert acc c,
      (x ∈ acc ∧ x.canonical_id ≠ c.canonical_id) ∨
      (x = c ∧ c.canonical_id ∉ candIds acc) ∨
      (∃ e ∈ acc, e.canonical_id = c.canonical_id ∧ x = mergeCand e c) := by
  induction acc with
  | nil =>
      intro x hx
      simp [fuseInsert] at hx
      exact Or.inr (Or.inl ⟨hx, by simp [candIds]⟩)
  | cons e es ih =>
      have hnd2 : (e.canonical_id :: candIds es).Nodup := hnd
      have hndes : (candIds es).Nodup := hnd2.of_cons
      have heids : e.canonical_id ∉ candIds es := (List.nodup_cons.mp hnd2).1
      intro x hx
      by_cases he : e.canonical_id = c.canonical_id
      · simp only [fuseInsert, he, if_true, List.mem_cons] at hx
        rcases hx with hx | hx
        · exact Or.inr (Or.inr ⟨e, by simp, he, hx⟩)
        · refine Or.inl ⟨List.mem_cons_of_mem e hx, ?_⟩
          intro hxc
          apply heids
          rw [he, ← hxc]
          exact List.mem_map_of_mem _ hx
      · simp only [fuseInsert, he, if_false, List.mem_cons] at hx
        rcases hx with hx | hx
        · subst hx
          exact Or.inl ⟨by simp, he⟩
        · rcases ih hndes x hx with ⟨h1, h2⟩ | ⟨h1, h2⟩ | ⟨e2, h1, h2, h3⟩
          · exact Or.inl ⟨List.mem_cons_of_mem e h1, h2⟩
          · refine Or.inr (Or.inl ⟨h1, ?_⟩)
            simp only [candIds, List.map_cons, List.mem_cons]
            push_neg
            exact ⟨fun h => he h.symm, by simpa [candIds] using h2⟩
          · exact Or.inr (Or.inr ⟨e2, List.mem_cons_of_mem e h1, h2, h3⟩)

/-- C1: for every input list of ScoredCandidates, fusion emits each
canonical_id at most once (the output ids are nodup, and every input id is
represented); each emitted candidate is one of the contributing inputs and
dominates every contribution with its canonical_id — its score is the
maximum contributing score, never a sum, and on score ties its origin has
the top priority, LLM_NORMALIZED above NEIGHBOR_EXPANSION. -/
theorem fuse_dedups_and_keeps_max (l : List ScoredCandidate) :
    (candIds (fuse l)).Nodup ∧
    (∀ x ∈ fuse l, x ∈ l ∧
      ∀ d ∈ l, d.canonical_id = x.canonical_id → dominates x d) ∧
    (∀ d ∈ l, d.canonical_id ∈ candIds (fuse l)) := by
  induction l with
  | nil => simp [fuse, candIds]
  | cons c cs ih =>
      obtain ⟨ihN, ihB, ihC⟩ := ih
      have hstep : fuse (c :: cs) = fuseInsert (fuse cs) c := rfl
      refine ⟨?_, ?_, ?_⟩
      · rw [hstep, candIds_fuseInsert]
        by_cases hmem : c.canonical_id ∈ candIds (fuse cs)
        · rw [if_pos hmem]; exact ihN
        · rw [if_neg hmem]
          simp [List.nodup_append, ihN, hmem]
      · intro x hx
        rw [hstep] at hx
        rcases fuseInsert_elems (fuse cs) c ihN x hx with
          ⟨hxm, hxne⟩ | ⟨hxc, hcnot⟩ | ⟨e, hem, heid, hxe⟩
        · obtain ⟨hxcs, hxdom⟩ := ihB x hxm
          refine ⟨List.mem_cons_of_mem c hxcs, ?_⟩
          intro d hd hdid
          rcases List.mem_cons.mp hd with hdc | hdcs
          · exact absurd (hdc ▸ hdid).symm hxne
          · exact hxdom d hdcs hdid
        · subst hxc
          refine ⟨by simp, ?_⟩
          intro d hd hdid
          rcases List.mem_cons.mp hd with hdc | hdcs
          · rw [hdc]; exact dominates_refl x
          · exact absurd (hdid ▸ ihC d hdcs) hcnot
        · obtain ⟨hecs, hedom⟩ := ihB e hem
          have hxid : x.canonical_id = c.canonical_id := by
            rw [hxe]; exact mergeCand_canonical_id e c heid
          constructor
          · rcases mergeCand_cases e c with hm | hm
            · rw [hxe, hm]; exact List.mem_cons_of_mem c hecs
            · rw [hxe, hm]; simp
          · intro d hd hdid
            rcases List.mem_cons.mp hd with hdc | hdcs
            · rw [hdc, hxe]; exact mergeCand_dominates_right e c
            · have hde : d.canonical_id = e.canonical_id := by
                rw [hdid, hxid, heid]
              have h1 : dominates e d := hedom d hdcs hde
              have h2 : dominates x e := hxe ▸ mergeCand_dominates_left e c
              exact dominates_trans h2 h1
      · intro d hd
        rw [hstep, candIds_fuseInsert]
        by_cases hmem : c.canonical_id ∈ candIds (fuse cs)
        · rw [if_pos hmem]
          rcases List.mem_cons.mp hd with hdc | hdcs
          · rw [hdc]; exact hmem
          · exact ihC d hdcs
        · rw [if_neg hmem]
          rcases List.mem_cons.mp hd with hdc | hdcs
          · rw [hdc]; simp
          · exact List.mem_append_left _ (ihC d hdcs)

/-! ## Theorems: neighbor query (C2) -/

theorem simLE_trans (a b c : String × ℚ)
    (h1 : simLE a b = true) (h2 : simLE b c = true) : simLE a c = true := by
  simp only [simLE, Bool.or_eq_true, Bool.and_eq_true, decide_eq_true_eq]
    at h1 h2 ⊢
  rcases h1 with h1 | ⟨h1e, h1s⟩ <;> rcases h2 with h2 | ⟨h2e, h2s⟩
  · exact Or.inl (lt_trans h2 h1)
  · exact Or.inl (h2e ▸ h1)
  · exact Or.inl (by rw [h1e]; exact h2)
  · exact Or.inr ⟨h1e.trans h2e, le_trans h1s h2s⟩

theorem simLE_total (a b : String × ℚ) :
    (simLE a b || simLE b a) = true := by
  simp only [simLE, Bool.or_eq_true, Bool.and_eq_true, decide_eq_true_eq]
  rcases lt_trichotomy a.2 b.2 with h | h | h
  · exact Or.inr (Or.inl h)
  · rcases le_total a.1 b.1 with hs | hs
    · exact Or.inl (Or.inr ⟨h, hs⟩)
    · exact Or.inr (Or.inr ⟨h.symm, hs⟩)
  · exact Or.inl (Or.inl h)

/-- C2: for every store with distinct ids, every canonical_id and every k,
the neighbor query returns at most k (canonical_id, similarity) pairs,
sorted by descending similarity with exact ties broken by lower
canonical_id, never containing the query id itself; and when the query id
has no vector in the store it returns the empty sequence rather than an
error. -/
theorem neighbors_contract (store : EmbeddingStore) (cid : String) (k : Nat)
    (hnd : (store.map Prod.fst).Nodup) :
    (store.lookup cid = none → neighbors store cid k = []) ∧
    (neighbors store cid k).length ≤ k ∧
    (∀ p ∈ neighbors store cid k, p.1 ≠ cid) ∧
    (neighbors store cid k).Pairwise
      (fun a b => b.2 < a.2 ∨ (a.2 = b.2 ∧ a.1 < b.1)) := by
  cases hq : store.lookup cid with
  | none =>
      refine ⟨fun _ => ?_, ?_, ?_, ?_⟩ <;> simp [neighbors, hq]
  | some q =>
      have hneq : neighbors store cid k =
          ((neighborCands store cid q).mergeSort simLE).take k := by
        simp [neighbors, hq]
      have hmem : ∀ p ∈ neighbors store cid k,
          p ∈ neighborCands store cid q := by
        intro p hp
        rw [hneq] at hp
        have h1 : p ∈ (neighborCands store cid q).mergeSort simLE :=
          (List.take_sublist k _).subset hp
        exact (List.mergeSort_perm (neighborCands store cid q) simLE).subset h1
      refine ⟨(fun h => Option.noConfusion h), ?_, ?_, ?_⟩
      · rw [hneq]
        exact (List.length_take k _).le.trans (min_le_left _ _)
      · intro p hp
        rcases List.mem_map.mp (hmem p hp) with ⟨e, hef, hep⟩
        have hf := (List.mem_filter.mp hef).2
        rw [← hep]
        simpa using hf
      · have hsorted : ((neighborCands store cid q).mergeSort simLE).Pairwise
            (fun a b => simLE a b = true) :=
          List.sorted_mergeSort simLE_trans simLE_total _
        have hpair1 : (neighbors store cid k).Pairwise
            (fun a b => simLE a b = true) := by
          rw [hneq]
          exact hsorted.sublist (List.take_sublist k _)
        have hfst : ((neighbors store cid k).map Prod.fst).Nodup := by
          have h0 : (neighborCands store cid q).map Prod.fst =
              (store.filter (fun p => p.1 ≠ cid)).map Prod.fst := by
            simp [neighborCands, List.map_map]
          have h1 : ((neighborCands store cid q).map Prod.fst).Nodup := by
            rw [h0]
            exact hnd.sublist ((List.filter_sublist store).map Prod.fst)
          have h2 : (((neighborCands store cid q).mergeSort simLE).map
              Prod.fst).Nodup :=
            (((List.mergeSort_perm _ simLE).map Prod.fst).nodup_iff).mpr h1
          rw [hneq]
          exact h2.sublist ((List.take_sublist k _).map Prod.fst)
        have hpair2 : (neighbors store cid k).Pairwise
            (fun a b => a.1 ≠ b.1) := by
          rw [← List.pairwise_map]
          exact hfst
        have := hpair1.and hpair2
        refine this.imp ?_
        intro a b hab
        obtain ⟨hle, hne⟩ := hab
        simp only [simLE, Bool.or_eq_true, Bool.and_eq_true,
          decide_eq_true_eq] at hle
        rcases hle with h | ⟨he, hs⟩
        · exact Or.inl h
        · exact Or.inr ⟨he, lt_of_le_of_ne hs hne⟩

-- C2 witness: the contract evaluated on a concrete three-vector store.
unseal List.merge List.mergeSort in
theorem neighbors_contract_witness :
    neighbors [("b1", [1, 0]), ("b2", [0, 1]), ("b3", [1, 0])] "b1" 2 =
      [("b3", 1), ("b2", 0)] ∧
    (neighbors [("b1", [1, 0]), ("b2", [0, 1]), ("b3", [1, 0])] "b1" 2).length ≤ 2 := by
  refine ⟨?_, ?_⟩
  · simp [neighbors, neighborCands, List.lookup, dot]
    norm_num [List.mergeSort, List.merge, simLE, List.splitInTwo]
  · exact (neighbors_contract [("b1", [1, 0]), ("b2", [0, 1]), ("b3", [1, 0])]
      "b1" 2 (by decide)).2.1

/-! ## Theorems: hydration (C4) and rank-and-truncate (C3) -/

theorem hydrateOne_id (meta : MetadataTable) (raw : RawTitleTable)
    (cid : String) : (hydrateOne meta raw cid).canonical_id = cid := by
  unfold hydrateOne
  cases meta.lookup cid <;> rfl

theorem hydrate_map_ids (meta : MetadataTable) (raw : RawTitleTable)
    (cids : List String) :
    (hydrate meta raw cids).map (fun r => r.canonical_id) = cids := by
  unfold hydrate
  rw [List.map_map]
  have h : ∀ cid ∈ cids,
      ((fun r => r.canonical_id) ∘ hydrateOne meta raw) cid = id cid :=
    fun cid _ => hydrateOne_id meta raw cid
  rw [List.map_congr_left h, List.map_id]

/-- C4: hydration is total over its input and order preserving — exactly
one MetadataRecord per input id, in input order (the output length equals
the input length and the i-th record carries the i-th id); an id absent
from the backing metadata table still yields a record, with only
canonical_id and the Catalog Index raw title (when available) populated
and every other field null. -/
theorem hydrate_total_and_order_preserving (meta : MetadataTable)
    (raw : RawTitleTable) (cids : List String) :
    (hydrate meta raw cids).length = cids.length ∧
    (hydrate meta raw cids).map (fun r => r.canonical_id) = cids ∧
    (∀ i (h : i < cids.length),
      ((hydrate meta raw cids).get
        ⟨i, by simpa [hydrate] using h⟩).canonical_id = cids.get ⟨i, h⟩) ∧
    (∀ cid ∈ cids, meta.lookup cid = none →
      hydrateOne meta raw cid =
        ⟨cid, raw.lookup cid, none, none, none, none⟩) := by
  refine ⟨by simp [hydrate], hydrate_map_ids meta raw cids, ?_, ?_⟩
  · intro i h
    show ((cids.map (hydrateOne meta raw)).get _).canonical_id = _
    rw [List.get_map]
    exact hydrateOne_id meta raw _
  · intro cid _ hmiss
    simp [hydrateOne, hmiss]

/-- C4 witness: hydrating a present and an absent id on a concrete table. -/
theorem hydrate_witness :
    (hydrate [("b1", ⟨"Dune", some "Frank Herbert", none, none, none⟩)]
      [("b2", "Hyperion")] ["b1", "b2"]).length = 2 ∧
    ((hydrate [("b1", ⟨"Dune", some "Frank Herbert", none, none, none⟩)]
      [("b2", "Hyperion")] ["b1", "b2"]).get ⟨1, by simp [hydrate]⟩).canonical_id
      = "b2" := by
  constructor
  · exact (hydrate_total_and_order_preserving _ _ _).1
  · exact (hydrate_total_and_order_preserving
      [("b1", ⟨"Dune", some "Frank Herbert", none, none, none⟩)]
      [("b2", "Hyperion")] ["b1", "b2"]).2.2.1 1 (by decide)

theorem scoreLE_trans (a b c : ScoredCandidate)
    (h1 : scoreLE a b = true) (h2 : scoreLE b c = true) : scoreLE a c = true := by
  simp only [scoreLE, Bool.or_eq_true, Bool.and_eq_true, decide_eq_true_eq]
    at h1 h2 ⊢
  rcases h1 with h1 | ⟨h1e, h1s⟩ <;> rcases h2 with h2 | ⟨h2e, h2s⟩
  · exact Or.inl (lt_trans h2 h1)
  · exact Or.inl (h2e ▸ h1)
  · exact Or.inl (by rw [h1e]; exact h2)
  · exact Or.inr ⟨h1e.trans h2e, le_trans h1s h2s⟩

theorem scoreLE_total (a b : ScoredCandidate) :
    (scoreLE a b || scoreLE b a) = true := by
  simp only [scoreLE, Bool.or_eq_true, Bool.and_eq_true, decide_eq_true_eq]
  rcases lt_trichotomy a.score b.score with h | h | h
  · exact Or.inr (Or.inl h)
  · rcases le_total a.canonical_id b.canonical_id with hs | hs
    · exact Or.inl (Or.inr ⟨h, hs⟩)
    · exact Or.inr (Or.inr ⟨h.symm, hs⟩)
  · exact Or.inl (Or.inl h)

/-- C3: rank-and-truncate sorts any id-deduplicated candidate set by score
descending with ties broken by canonical_id ascending, keeps only
candidates of the input, and truncates to at most K elements; hydrating
the resulting id list yields an ordered MetadataRecord sequence of the
same length (hence between 0 and K) whose order is the final rank order. -/
theorem rank_truncate_contract (k : Nat) (cands : List ScoredCandidate)
    (hnd : (candIds cands).Nodup) (meta : MetadataTable)
    (raw : RawTitleTable) :
    (rankTruncate k cands).length ≤ k ∧
    (∀ c ∈ rankTruncate k cands, c ∈ cands) ∧
    (rankTruncate k cands).Pairwise (fun a b =>
      b.score < a.score ∨
        (a.score = b.score ∧ a.canonical_id < b.canonical_id)) ∧
    (hydrate meta raw (candIds (rankTruncate k cands))).map
      (fun r => r.canonical_id) = candIds (rankTruncate k cands) ∧
    (hydrate meta raw (candIds (rankTruncate k cands))).length ≤ k ∧
    (rankTruncate k cands).length = min k cands.length ∧
    (cands.length ≤ k → ∀ c ∈ cands, c ∈ rankTruncate k cands) := by
  have hmem : ∀ c ∈ rankTruncate k cands, c ∈ cands := by
    intro c hc
    have h1 : c ∈ cands.mergeSort scoreLE :=
      (List.take_sublist k _).subset hc
    exact (List.mergeSort_perm cands scoreLE).subset h1
  have hlen : (rankTruncate k cands).length ≤ k :=
    (List.length_take k _).le.trans (min_le_left _ _)
  refine ⟨hlen, hmem, ?_, hydrate_map_ids meta raw _, ?_, ?_, ?_⟩
  · have hsorted : (cands.mergeSort scoreLE).Pairwise
        (fun a b => scoreLE a b = true) :=
      List.sorted_mergeSort scoreLE_trans scoreLE_total cands
    have hpair1 : (rankTruncate k cands).Pairwise
        (fun a b => scoreLE a b = true) :=
      hsorted.sublist (List.take_sublist k _)
    have hids : (candIds (rankTruncate k cands)).Nodup := by
      have h1 : (candIds (cands.mergeSort scoreLE)).Nodup :=
        (((List.mergeSort_perm cands scoreLE).map _).nodup_iff).mpr hnd
      exact h1.sublist ((List.take_sublist k _).map _)
    have hpair2 : (rankTruncate k cands).Pairwise
        (fun a b => a.canonical_id ≠ b.canonical_id) := by
      rw [← List.pairwise_map]
      exact hids
    refine (hpair1.and hpair2).imp ?_
    intro a b hab
    obtain ⟨hle, hne⟩ := hab
    simp only [scoreLE, Bool.or_eq_true, Bool.and_eq_true,
      decide_eq_true_eq] at hle
    rcases hle with h | ⟨he, hs⟩
    · exact Or.inl h
    · exact Or.inr ⟨he, lt_of_le_of_ne hs hne⟩
  · rw [hydrate, List.length_map]
    simpa [candIds] using hlen
  · rw [rankTruncate, List.length_take,
      (List.mergeSort_perm cands scoreLE).length_eq]
  · intro hle c hc
    have hlen2 : (cands.mergeSort scoreLE).length ≤ k := by
      rw [(List.mergeSort_perm cands scoreLE).length_eq]
      exact hle
    rw [rankTruncate, List.take_of_length_le hlen2]
    exact ((List.mergeSort_perm cands scoreLE).mem_iff).mpr hc

-- C3 witness: ranking three concrete candidates with K = 2.
unseal List.merge List.mergeSort in
theorem rank_truncate_witness :
    rankTruncate 2 [⟨"a", 1/2, Origin.LLM_NORMALIZED⟩,
      ⟨"b", 9/10, Origin.LLM_NORMALIZED⟩,
      ⟨"c", 7/10, Origin.NEIGHBOR_EXPANSION⟩] =
      [⟨"b", 9/10, Origin.LLM_NORMALIZED⟩,
       ⟨"c", 7/10, Origin.NEIGHBOR_EXPANSION⟩] ∧
    (rankTruncate 2 [⟨"a", 1/2, Origin.LLM_NORMALIZED⟩,
      ⟨"b", 9/10, Origin.LLM_NORMALIZED⟩,
      ⟨"c", 7/10, Origin.NEIGHBOR_EXPANSION⟩]).length ≤ 2 := by
  constructor
  · norm_num [rankTruncate, List.mergeSort, List.merge, scoreLE,
      List.splitInTwo]
  · exact (rank_truncate_contract 2 _ (by decide) [] []).1

/-! ## Theorems: empty-result outcomes (C5) -/

theorem genCandidates_nil_of_unresolved (cfg : EngineConfig)
    (idx : CatalogIndex) (titles : List String)
    (h : ∀ t ∈ titles, resolve idx t = none) :
    genCandidates cfg idx titles = [] := by
  unfold genCandidates
  refine List.filterMap_eq_nil_iff.mpr ?_
  intro p hp
  rw [h p.2 (List.snd_mem_of_mem_enum hp)]
  rfl

/-- C5: a request in which no generated title resolves in the catalog,
and likewise a request whose language-model call fails or times out,
returns an empty recommendation list as a distinct success outcome, never
an error; only a cache-load failure aborts the request, surfacing as the
service-level error. -/
theorem empty_results_are_success (cfg : EngineConfig) (st : Stores) :
    (∀ titles, (∀ t ∈ titles, resolve st.catalog t = none) →
      runService (.ok st) cfg (.ok titles) = .ok []) ∧
    runService (.ok st) cfg .unavailable = .ok [] ∧
    (∀ e llm, runService (.error e) cfg llm = .error e) := by
  refine ⟨?_, rfl, fun e llm => rfl⟩
  intro titles h
  show Except.ok (recommend cfg st (.ok titles)) = Except.ok []
  have hg := genCandidates_nil_of_unresolved cfg st.catalog titles h
  simp [recommend, hg]

/-- C5 witness: with an empty catalog every title is unresolved, and the
request yields the ok-empty outcome; an unavailable model and a failed
load are likewise settled on concrete inputs. -/
theorem empty_results_are_success_witness :
    runService (.ok ⟨[], [], [], []⟩) ⟨10, 5, 10, 4/5, 3⟩
      (.ok ["Leviathan Wakes"]) = .ok [] ∧
    runService (.ok ⟨[], [], [], []⟩) ⟨10, 5, 10, 4/5, 3⟩
      .unavailable = .ok [] ∧
    runService (.error ⟨"catalog fetch failed"⟩) ⟨10, 5, 10, 4/5, 3⟩
      .unavailable = .error ⟨"catalog fetch failed"⟩ := by
  refine ⟨?_, ?_, ?_⟩
  · exact (empty_results_are_success ⟨10, 5, 10, 4/5, 3⟩ ⟨[], [], [], []⟩).1
      ["Leviathan Wakes"] (by intro t ht; rfl)
  · exact (empty_results_are_success ⟨10, 5, 10, 4/5, 3⟩ ⟨[], [], [], []⟩).2.1
  · exact (empty_results_are_success ⟨10, 5, 10, 4/5, 3⟩ ⟨[], [], [], []⟩).2.2
      ⟨"catalog fetch failed"⟩ .unavailable

/-! ## Theorems: resource cache single load (C6) -/

theorem cacheStep_settled (s : LoadState) (op : CacheOp)
    (h : s ≠ LoadState.unloaded) :
    (cacheStep s op).2 = false ∧ (cacheStep s op).1 ≠ LoadState.unloaded := by
  revert h
  cases s <;> cases op <;> decide

theorem cacheRun_settled (ops : List CacheOp) :
    ∀ s, s ≠ LoadState.unloaded → (cacheRun s ops).2 = 0 := by
  induction ops with
  | nil => intro s _; rfl
  | cons op ops ih =>
      intro s hs
      obtain ⟨hflag, hnext⟩ := cacheStep_settled s op hs
      simp only [cacheRun, hflag, Bool.false_eq_true, if_false]
      rw [ih (cacheStep s op).1 hnext]

theorem loadsIssued_eq (ops : List CacheOp) :
    loadsIssued ops = if CacheOp.request ∈ ops then 1 else 0 := by
  induction ops with
  | nil => rfl
  | cons op ops ih =>
      cases op with
      | request =>
          show (1 : Nat) + (cacheRun LoadState.loading ops).2 = _
          rw [cacheRun_settled ops LoadState.loading (by decide)]
          simp
      | completeOk =>
          show (0 : Nat) + (cacheRun LoadState.unloaded ops).2 = _
          rw [Nat.zero_add]
          rw [show (cacheRun LoadState.unloaded ops).2 = loadsIssued ops
            from rfl, ih]
          simp
      | completeFail =>
          show (0 : Nat) + (cacheRun LoadState.unloaded ops).2 = _
          rw [Nat.zero_add]
          rw [show (cacheRun LoadState.unloaded ops).2 = loadsIssued ops
            from rfl, ih]
          simp

/-- C6: for any interleaving of get_or_load calls and load completions at
one resource key starting UNLOADED, the backing remote load is issued at
most once — callers that arrive while the entry is LOADING, READY or
FAILED never issue a second fetch — and as soon as any get_or_load call
occurs, exactly one load has been issued. -/
theorem get_or_load_at_most_one_load (ops : List CacheOp) :
    loadsIssued ops ≤ 1 ∧
    (CacheOp.request ∈ ops → loadsIssued ops = 1) := by
  rw [loadsIssued_eq]
  by_cases h : CacheOp.request ∈ ops
  · simp [h]
  · simp [h]

/-- C6 witness: ten concurrent first requests issue exactly one remote
load (the spec's Scenario 4). -/
theorem get_or_load_witness :
    loadsIssued (List.replicate 10 CacheOp.request) = 1 :=
  (get_or_load_at_most_one_load (List.replicate 10 CacheOp.request)).2
    (by decide)

/-! ## Theorems: chat client (C7, C9, C10) -/

/-- C7 evidence: the client does not submit the engine input of the spec.
On the concrete first message "dune " (non-mock configuration), the
request handleSendMessage issues through fetchChatResponse goes to
/api/chat with the single body field history holding the trimmed prompt
string — there is no prompt field at all and no array of prior
user-message texts, while the spec-side body would carry both. -/
theorem client_request_lacks_prompt_field :
    clientRequest "dune " initialChatState =
      some ⟨"/api/chat", [("history", JsonVal.str "dune")]⟩ ∧
    (clientRequest "dune " initialChatState).map
      (fun r => r.body.map Prod.fst) = some ["history"] ∧
    (specEngineRequestBody "dune " initialChatState).map Prod.fst =
      ["prompt", "history"] ∧
    (["history"] : List String) ≠ ["prompt", "history"] := by
  refine ⟨rfl, rfl, rfl, by decide⟩

/-- C9: the recommendation-drawer invariant — every stored history entry
has a non-empty book list and the active message id, when set, names a
stored entry — holds initially and is preserved by every chat action;
consequently activeRecommendations is non-empty whenever an active id is
set. -/
theorem chat_recommendation_invariant :
    ChatInv initialChatState ∧
    (∀ mid books s, ChatInv s →
      ChatInv (persistRecommendations mid books s)) ∧
    (∀ mid s, ChatInv s → ChatInv (showRecommendationsForMessage mid s)) ∧
    (∀ b s, ChatInv s → ChatInv (handleViewDetails b s)) ∧
    (∀ s, ChatInv s → ChatInv (handleCloseModal s)) ∧
    (∀ uuid text s, ChatInv s →
      ChatInv (handleSendMessageStart uuid text s)) ∧
    (∀ aiMsg s, ChatInv s → ChatInv (handleSendMessageSuccess aiMsg s)) ∧
    (∀ msg s, ChatInv s → ChatInv (handleSendMessageFailure msg s)) ∧
    (∀ s, ChatInv s → ∀ mid, s.activeRecommendationMessageId = some mid →
      activeRecommendations s ≠ []) := by
  have hp : ∀ mid books s, ChatInv s →
      ChatInv (persistRecommendations mid books s) := by
    intro mid books s hs
    unfold persistRecommendations
    by_cases hb : books.isEmpty
    · rw [if_pos hb]; exact hs
    · rw [if_neg hb]
      obtain ⟨h1, h2⟩ := hs
      constructor
      · intro e he
        rcases List.mem_append.mp he with h | h
        · exact h1 e h
        · have he2 : e = ⟨mid, books⟩ := by simpa using h
          rw [he2]
          have hbf : books.isEmpty = false := by simpa using hb
          exact List.isEmpty_eq_false.mp hbf
      · intro mid2 hmid
        have hm : mid = mid2 := by simpa using hmid
        refine ⟨⟨mid, books⟩, ?_, by simpa using hm⟩
        exact List.mem_append_right _ (by simp)
  refine ⟨⟨?_, ?_⟩, hp, ?_, ?_, ?_, ?_, ?_, ?_, ?_⟩
  · intro e he
    simp [initialChatState] at he
  · intro mid hmid
    simp [initialChatState] at hmid
  · intro mid s hs
    unfold showRecommendationsForMessage
    by_cases hb : s.recommendationHistory.any
        (fun e => e.messageId = mid) = true
    · rw [if_pos hb]
      obtain ⟨h1, h2⟩ := hs
      refine ⟨h1, ?_⟩
      intro mid2 hmid
      have hm : mid = mid2 := by simpa using hmid
      rcases List.any_eq_true.mp hb with ⟨e, he, hpe⟩
      have hpe2 : e.messageId = mid := by simpa using hpe
      exact ⟨e, he, by rw [hpe2, hm]⟩
    · rw [if_neg hb]; exact hs
  · intro b s hs; exact hs
  · intro s hs; exact hs
  · intro uuid text s hs
    unfold handleSendMessageStart
    by_cases ht : jsTrim text = ""
    · rw [if_pos ht]; exact hs
    · rw [if_neg ht]; exact hs
  · intro aiMsg s hs
    unfold handleSendMessageSuccess
    by_cases hr : aiMsg.recommendations.isEmpty
    · simp only [hr, if_true]
      exact hs
    · simp only [hr, Bool.false_eq_true, if_false]
      exact hp aiMsg.id aiMsg.recommendations _ hs
  · intro msg s hs; exact hs
  · intro s hs mid hmid
    obtain ⟨h1, h2⟩ := hs
    obtain ⟨e, he, heid⟩ := h2 mid hmid
    simp only [activeRecommendations, hmid]
    have hex : (s.recommendationHistory.find?
        (fun e2 => e2.messageId = mid)).isSome :=
      List.find?_isSome.mpr ⟨e, he, by simp [heid]⟩
    obtain ⟨e2, he2⟩ := Option.isSome_iff_exists.mp hex
    rw [he2]
    simpa using h1 e2 (List.mem_of_find?_eq_some he2)

/-- C9 witness: persisting one non-empty recommendation set from the
initial state keeps the invariant, concretely. -/
theorem chat_recommendation_invariant_witness :
    ChatInv (persistRecommendations "m1"
      [⟨"B000", "Dune", none, none, none, none⟩] initialChatState) :=
  chat_recommendation_invariant.2.1 "m1"
    [⟨"B000", "Dune", none, none, none, none⟩] initialChatState
    chat_recommendation_invariant.1

/-- C10: submitting whitespace-only input is a no-op at the client
boundary — handleSendMessage returns without changing any chat state and
without issuing a request, and the chat input form does not invoke
handleSendMessage at all for such input. -/
theorem blank_input_is_noop (uuid text : String) (s : ChatState)
    (h : jsTrim text = "") :
    handleSendMessageStart uuid text s = s ∧
    clientRequest text s = none ∧
    chatInputSubmits text = false := by
  refine ⟨?_, ?_, ?_⟩
  · unfold handleSendMessageStart
    rw [if_pos h]
  · unfold clientRequest
    rw [if_pos h]
  · unfold chatInputSubmits
    rw [h]
    rfl

/-- C10 witness: the no-op on the concrete whitespace message. -/
theorem blank_input_is_noop_witness :
    handleSendMessageStart "u1" "   " initialChatState = initialChatState ∧
    clientRequest "   " initialChatState = none ∧
    chatInputSubmits "   " = false :=
  blank_input_is_noop "u1" "   " initialChatState (by decide)

/-- Scenario 3 of the spec, evaluated on the fusion model: two
neighbor-expansion contributions for one shared id with scores 0.64 and
0.432 fuse to the single entry with the maximum score 0.64. -/
theorem fuse_scenario3_eval :
    fuse [⟨"shared", 16/25, Origin.NEIGHBOR_EXPANSION⟩,
      ⟨"shared", 54/125, Origin.NEIGHBOR_EXPANSION⟩] =
      [⟨"shared", 16/25, Origin.NEIGHBOR_EXPANSION⟩] := by
  norm_num [fuse, fuseInsert, mergeCand]
